import Mathlib

/-!
Verification of the memz knowledge-base service.

Python strings are embedded as `List Char`; MD5 fingerprints are modelled by
the fingerprinted text itself (the digest function is treated as injective);
file reading, PDF/Word extraction, the vector store and the network are
modelled by passing their observable results explicitly.  All definitions are
translated from `src/KnowledgeB/knowledge_base.py` and `src/backend/app.py`.
-/

namespace Memz

/-- Whitespace recognised by Python `str.strip()` (ASCII part: the inputs we
reason about contain only ASCII). -/
def isWS (c : Char) : Bool :=
  c = ' ' || c = '\t' || c = '\n' || c = '\r' || c = '\x0b' || c = '\x0c'

/-- Python `s.strip()`: drop whitespace from both ends. -/
def strip (s : List Char) : List Char :=
  ((s.dropWhile isWS).reverse.dropWhile isWS).reverse

/-- The paragraph separator `"\n\n"`. -/
def sep : List Char := ['\n', '\n']

/-- Python `content.split('\n\n')`: leftmost, non-overlapping splitting on the
two-newline separator; `"".split('\n\n') == [""]`. -/
def splitParas : List Char → List (List Char)
  | [] => [[]]
  | '\n' :: '\n' :: rest => [] :: splitParas rest
  | c :: rest =>
    match splitParas rest with
    | [] => [[c]]
    | p :: ps => (c :: p) :: ps

/-- Python `'\n\n'.join(ps)`. -/
def joinSep : List (List Char) → List Char
  | [] => []
  | [p] => p
  | p :: ps => p ++ sep ++ joinSep ps

/-- The `for para in paragraphs` loop of `_chunk_content`
(knowledge_base.py lines 299-305), with the accumulated `chunks` list and the
running `current_chunk` buffer threaded explicitly. -/
def chunkLoop (cs : Nat) : List (List Char) → List (List Char) → List Char →
    List (List Char) × List Char
  | [], chunks, cur => (chunks, cur)
  | para :: rest, chunks, cur =>
    if cur.length + para.length < cs then
      chunkLoop cs rest chunks (cur ++ para ++ sep)
    else
      chunkLoop cs rest (if cur = [] then chunks else chunks ++ [strip cur]) (para ++ sep)

/-- The paragraph path of `_chunk_content`: run the loop from an empty buffer
and seal the final non-empty buffer (lines 294-308). -/
def paraChunks (content : List Char) (cs : Nat) : List (List Char) :=
  let r := chunkLoop cs (splitParas content) [] []
  if r.2 = [] then r.1 else r.1 ++ [strip r.2]

/-- The fixed-size fallback of `_chunk_content` (line 312):
`[content[i:i+chunk_size] for i in range(0, len(content), chunk_size)]`.
A zero `chunk_size` would raise in Python; it is modelled as producing no
slices (the branch is, in any case, unreachable: see `paraChunks_ne_nil`). -/
def sliceChunks (content : List Char) (cs : Nat) : List (List Char) :=
  if cs = 0 then []
  else if h : content = [] then []
  else content.take cs :: sliceChunks (content.drop cs) cs
termination_by content.length
decreasing_by
  simp only [List.length_drop]
  have : 0 < content.length := List.length_pos.mpr h
  omega

/-- `_chunk_content` (knowledge_base.py lines 290-314). -/
def chunk_content (content : List Char) (cs : Nat) : List (List Char) :=
  if paraChunks content cs = [] then sliceChunks content cs else paraChunks content cs

/-- Length of a list of paragraphs rendered with the blank-line separators
between them. -/
def joinLen (buf : List (List Char)) : Nat := (joinSep buf).length

/-- The chunking algorithm as the specification words it: greedily accumulate
paragraphs into a buffer; when adding the next paragraph would make the
buffer's rendered character length meet or exceed the threshold, seal the
(non-empty) buffer as a chunk and start a new buffer with the triggering
paragraph; always seal the final non-empty buffer. -/
def specGreedy (cs : Nat) : List (List Char) → List (List Char) → List (List Char)
  | buf, [] => if buf = [] then [] else [strip (joinSep buf)]
  | buf, p :: ps =>
    if cs ≤ joinLen (buf ++ [p]) then
      (if buf = [] then [] else [strip (joinSep buf)]) ++ specGreedy cs [p] ps
    else
      specGreedy cs (buf ++ [p]) ps

/-- Chunking, modelled from the spec's words (for comparison with
`chunk_content`). -/
def chunkContentSpec (content : List Char) (cs : Nat) : List (List Char) :=
  specGreedy cs [] (splitParas content)

/-- The code's string buffer corresponding to a spec-level paragraph buffer:
each accumulated paragraph is followed by the separator. -/
def bufFlat (buf : List (List Char)) : List Char :=
  (buf.map (fun p => p ++ sep)).flatten

end Memz

namespace Memz

lemma splitParas_ne_nil (s : List Char) : splitParas s ≠ [] := by
  induction s using splitParas.induct with
  | case1 => simp [splitParas]
  | case2 rest ih => simp [splitParas]
  | case3 c rest h heq ih => exact absurd heq ih
  | case4 c rest h p ps heq ih =>
    rw [splitParas]
    · rw [heq]
      simp
    · exact h

lemma joinSep_cons (p : List Char) {l : List (List Char)} (h : l ≠ []) :
    joinSep (p :: l) = p ++ sep ++ joinSep l := by
  cases l with
  | nil => exact absurd rfl h
  | cons q qs => cases qs <;> rfl

lemma joinSep_splitParas (s : List Char) : joinSep (splitParas s) = s := by
  induction s using splitParas.induct with
  | case1 => rfl
  | case2 rest ih =>
    rw [splitParas, joinSep_cons _ (splitParas_ne_nil rest), ih]
    simp [sep]
  | case3 c rest h heq ih => exact absurd heq (splitParas_ne_nil rest)
  | case4 c rest h p ps heq ih =>
    rw [splitParas]
    · rw [heq]
      rw [heq] at ih
      cases ps with
      | nil =>
        simp only [joinSep] at ih ⊢
        rw [ih]
      | cons q qs =>
        rw [joinSep_cons _ (by simp)] at ih
        rw [joinSep_cons _ (by simp), ← ih]
        simp
    · exact h

lemma bufFlat_nil : bufFlat [] = [] := rfl

lemma bufFlat_snoc (buf : List (List Char)) (p : List Char) :
    bufFlat (buf ++ [p]) = bufFlat buf ++ (p ++ sep) := by
  simp [bufFlat]

lemma bufFlat_eq_nil {buf : List (List Char)} : bufFlat buf = [] ↔ buf = [] := by
  cases buf with
  | nil => simp [bufFlat]
  | cons q qs => simp [bufFlat, sep]

lemma joinSep_snoc {buf : List (List Char)} (p : List Char) (h : buf ≠ []) :
    joinSep (buf ++ [p]) = joinSep buf ++ sep ++ p := by
  induction buf with
  | nil => exact absurd rfl h
  | cons q qs ih =>
    cases qs with
    | nil => simp [joinSep]
    | cons r rs =>
      rw [List.cons_append, joinSep_cons _ (by simp), joinSep_cons q (by simp : (r :: rs : List (List Char)) ≠ []), ih (by simp)]
      simp

lemma bufFlat_eq_joinSep {buf : List (List Char)} (h : buf ≠ []) :
    bufFlat buf = joinSep buf ++ sep := by
  induction buf with
  | nil => exact absurd rfl h
  | cons q qs ih =>
    cases qs with
    | nil => simp [bufFlat, joinSep]
    | cons r rs =>
      rw [joinSep_cons _ (by simp)]
      have : bufFlat (q :: r :: rs) = (q ++ sep) ++ bufFlat (r :: rs) := by simp [bufFlat]
      rw [this, ih (by simp)]
      simp

lemma bufFlat_length_add (buf : List (List Char)) (p : List Char) :
    (bufFlat buf).length + p.length = joinLen (buf ++ [p]) := by
  cases buf with
  | nil => simp [bufFlat, joinLen, joinSep]
  | cons q qs =>
    rw [joinLen, joinSep_snoc _ (by simp), bufFlat_eq_joinSep (by simp : (q :: qs : List (List Char)) ≠ [])]
    simp [Nat.add_assoc]

lemma dropWhile_eq_nil_of_all {w : List Char} (h : ∀ c ∈ w, isWS c = true) :
    w.dropWhile isWS = [] :=
  List.dropWhile_eq_nil_iff.mpr h

lemma strip_append_ws {x w : List Char} (h : ∀ c ∈ w, isWS c = true) :
    strip (x ++ w) = strip x := by
  unfold strip
  by_cases hx : x.dropWhile isWS = []
  · have h1 : (x ++ w).dropWhile isWS = w.dropWhile isWS := by
      rw [List.dropWhile_append, hx]
      simp
    rw [h1, dropWhile_eq_nil_of_all h, hx]
  · have h1 : (x ++ w).dropWhile isWS = x.dropWhile isWS ++ w := by
      rw [List.dropWhile_append]
      simp [hx]
    rw [h1, List.reverse_append, List.dropWhile_append,
      dropWhile_eq_nil_of_all (fun c hc => h c (List.mem_reverse.mp hc))]
    simp

lemma strip_append_sep (x : List Char) : strip (x ++ sep) = strip x := by
  refine strip_append_ws ?_
  intro c hc
  simp only [sep, List.mem_cons, List.not_mem_nil, or_false] at hc
  rcases hc with h | h <;> simp [h, isWS]

lemma chunkLoop_spec (cs : Nat) :
    ∀ (ps buf chunks : List (List Char)),
      (if (chunkLoop cs ps chunks (bufFlat buf)).2 = []
       then (chunkLoop cs ps chunks (bufFlat buf)).1
       else (chunkLoop cs ps chunks (bufFlat buf)).1 ++
         [strip (chunkLoop cs ps chunks (bufFlat buf)).2])
      = chunks ++ specGreedy cs buf ps := by
  intro ps
  induction ps with
  | nil =>
    intro buf chunks
    simp only [chunkLoop, specGreedy]
    by_cases hb : buf = []
    · subst hb
      simp [bufFlat]
    · have hbf : bufFlat buf ≠ [] := fun hh => hb (bufFlat_eq_nil.mp hh)
      rw [if_neg hbf, if_neg hb, bufFlat_eq_joinSep hb, strip_append_sep]
  | cons p rest ih =>
    intro buf chunks
    simp only [chunkLoop]
    have hlen := bufFlat_length_add buf p
    by_cases hlt : (bufFlat buf).length + p.length < cs
    · rw [if_pos hlt]
      have harg : bufFlat buf ++ p ++ sep = bufFlat (buf ++ [p]) := by
        rw [bufFlat_snoc]
        simp
      rw [harg, ih (buf ++ [p]) chunks, specGreedy, if_neg (by omega)]
    · rw [if_neg hlt]
      have hps : p ++ sep = bufFlat [p] := by simp [bufFlat]
      rw [hps]
      by_cases hb : buf = []
      · subst hb
        rw [bufFlat_nil, if_pos rfl, ih [p] chunks, specGreedy,
          if_pos (hlen ▸ Nat.le_of_not_lt hlt), if_pos rfl]
        simp
      · have hbf : bufFlat buf ≠ [] := fun hh => hb (bufFlat_eq_nil.mp hh)
        have hstr : strip (bufFlat buf) = strip (joinSep buf) := by
          rw [bufFlat_eq_joinSep hb, strip_append_sep]
        rw [if_neg hbf, hstr, ih [p] (chunks ++ [strip (joinSep buf)]), specGreedy,
          if_neg hb, if_pos (hlen ▸ Nat.le_of_not_lt hlt)]
        simp

lemma paraChunks_eq_spec (content : List Char) (cs : Nat) :
    paraChunks content cs = chunkContentSpec content cs := by
  have h := chunkLoop_spec cs (splitParas content) [] []
  rw [bufFlat_nil] at h
  simpa [paraChunks, chunkContentSpec] using h

lemma specGreedy_eq_nil {cs : Nat} {ps buf : List (List Char)} :
    specGreedy cs buf ps = [] → buf = [] ∧ ps = [] := by
  induction ps generalizing buf with
  | nil =>
    intro h
    rw [specGreedy] at h
    by_cases hb : buf = []
    · exact ⟨hb, rfl⟩
    · rw [if_neg hb] at h
      simp at h
  | cons p rest ih =>
    intro h
    rw [specGreedy] at h
    by_cases hc : cs ≤ joinLen (buf ++ [p])
    · rw [if_pos hc] at h
      rcases List.append_eq_nil.mp h with ⟨h1, h2⟩
      exact absurd (ih h2).1 (by simp)
    · rw [if_neg hc] at h
      exact absurd (ih h).1 (by simp)

lemma paraChunks_ne_nil (content : List Char) (cs : Nat) :
    paraChunks content cs ≠ [] := by
  rw [paraChunks_eq_spec, chunkContentSpec]
  intro h
  exact splitParas_ne_nil content (specGreedy_eq_nil h).2

lemma chunk_content_eq_paraChunks (content : List Char) (cs : Nat) :
    chunk_content content cs = paraChunks content cs := by
  rw [chunk_content, if_neg (paraChunks_ne_nil content cs)]

end Memz

namespace Memz

lemma dropWhile_eq_self_of_head {l : List Char}
    (h : ∀ c, l.head? = some c → isWS c = false) : l.dropWhile isWS = l := by
  cases l with
  | nil => rfl
  | cons a t =>
    rw [List.dropWhile_cons, if_neg (by simp [h a rfl])]

lemma strip_eq_self_of_ends {s : List Char}
    (h1 : ∀ c, s.head? = some c → isWS c = false)
    (h2 : ∀ c, s.getLast? = some c → isWS c = false) : strip s = s := by
  unfold strip
  rw [dropWhile_eq_self_of_head h1,
    dropWhile_eq_self_of_head (fun c hc => h2 c (by rwa [List.head?_reverse] at hc)),
    List.reverse_reverse]

lemma dropWhile_eq_self_head {l : List Char} (h : l.dropWhile isWS = l) :
    ∀ c, l.head? = some c → isWS c = false := by
  intro c hc
  cases l with
  | nil => simp at hc
  | cons a t =>
    have hac : a = c := by simpa using hc
    by_contra hws
    have hws' : isWS a = true := by
      rw [hac]
      simpa using hws
    rw [List.dropWhile_cons, if_pos hws'] at h
    have hle : (t.dropWhile isWS).length ≤ t.length := (List.dropWhile_suffix _).length_le
    have hlen : (t.dropWhile isWS).length = (a :: t).length := by rw [h]
    simp at hlen
    omega

lemma strip_eq_self_parts {p : List Char} (h : strip p = p) :
    p.dropWhile isWS = p ∧ p.reverse.dropWhile isWS = p.reverse := by
  have hsuf1 : p.dropWhile isWS <:+ p := List.dropWhile_suffix _
  have l1 : (p.dropWhile isWS).length ≤ p.length := hsuf1.length_le
  have l2 : ((p.dropWhile isWS).reverse.dropWhile isWS).length ≤ (p.dropWhile isWS).length := by
    have := (List.dropWhile_suffix (l := (p.dropWhile isWS).reverse) isWS).length_le
    simpa using this
  have l0 : p.length = ((p.dropWhile isWS).reverse.dropWhile isWS).length := by
    conv_lhs => rw [← h]
    simp [strip]
  have hdw1 : p.dropWhile isWS = p := hsuf1.eq_of_length (by omega)
  have h2 : (p.reverse.dropWhile isWS).reverse = p := by
    conv_rhs => rw [← h]
    unfold strip
    rw [hdw1]
  have h3 : p.reverse.dropWhile isWS = p.reverse := by
    have := congrArg List.reverse h2
    simpa using this
  exact ⟨hdw1, h3⟩

/-- A paragraph is good when it is nonempty and already trimmed. -/
def GoodPara (p : List Char) : Prop := p ≠ [] ∧ strip p = p

lemma joinSep_cons_ne_nil {r : List Char} (hr : r ≠ []) (rs : List (List Char)) :
    joinSep (r :: rs) ≠ [] := by
  cases rs with
  | nil => simpa [joinSep] using hr
  | cons q qs =>
    rw [joinSep_cons _ (by simp)]
    exact List.append_ne_nil_of_left_ne_nil (List.append_ne_nil_of_left_ne_nil hr sep) _

lemma head?_joinSep_good : ∀ {buf : List (List Char)} {c : Char},
    (∀ p ∈ buf, p ≠ []) → (joinSep buf).head? = some c → ∃ p ∈ buf, p.head? = some c := by
  intro buf
  induction buf with
  | nil => intro c _ hc; simp [joinSep] at hc
  | cons b rest ih =>
    intro c hall hc
    cases rest with
    | nil => exact ⟨b, by simp, by simpa [joinSep] using hc⟩
    | cons r rs =>
      rw [joinSep_cons _ (by simp), List.head?_append, List.head?_append] at hc
      have hb : b ≠ [] := hall b (by simp)
      obtain ⟨d, hd⟩ := Option.isSome_iff_exists.mp (List.head?_isSome.mpr hb)
      rw [hd] at hc
      simp at hc
      exact ⟨b, by simp, by rw [hd, hc]⟩

lemma getLast?_joinSep_good : ∀ {buf : List (List Char)} {c : Char},
    (∀ p ∈ buf, p ≠ []) → (joinSep buf).getLast? = some c → ∃ p ∈ buf, p.getLast? = some c := by
  intro buf
  induction buf with
  | nil => intro c _ hc; simp [joinSep] at hc
  | cons b rest ih =>
    intro c hall hc
    cases rest with
    | nil => exact ⟨b, by simp, by simpa [joinSep] using hc⟩
    | cons r rs =>
      rw [joinSep_cons _ (by simp), List.getLast?_append] at hc
      have hJ : joinSep (r :: rs) ≠ [] := joinSep_cons_ne_nil (hall r (by simp)) rs
      have hJs : (joinSep (r :: rs)).getLast?.isSome := by
        rw [← List.head?_reverse]
        exact List.head?_isSome.mpr (by simpa using hJ)
      obtain ⟨d, hd⟩ := Option.isSome_iff_exists.mp hJs
      rw [hd] at hc
      simp at hc
      obtain ⟨p, hp, hpl⟩ := ih (fun p hp => hall p (List.mem_cons_of_mem _ hp)) (by rw [hd, hc])
      exact ⟨p, List.mem_cons_of_mem _ hp, hpl⟩

lemma strip_joinSep_good {buf : List (List Char)} (hb : buf ≠ [])
    (hall : ∀ p ∈ buf, GoodPara p) : strip (joinSep buf) = joinSep buf := by
  apply strip_eq_self_of_ends
  · intro c hc
    obtain ⟨p, hp, hphead⟩ := head?_joinSep_good (fun p hp => (hall p hp).1) hc
    exact dropWhile_eq_self_head (strip_eq_self_parts (hall p hp).2).1 c hphead
  · intro c hc
    obtain ⟨p, hp, hplast⟩ := getLast?_joinSep_good (fun p hp => (hall p hp).1) hc
    exact dropWhile_eq_self_head (strip_eq_self_parts (hall p hp).2).2 c
      (by rwa [List.head?_reverse])

lemma joinSep_append_of_ne {a b : List (List Char)} (ha : a ≠ []) (hb : b ≠ []) :
    joinSep (a ++ b) = joinSep a ++ sep ++ joinSep b := by
  induction a with
  | nil => exact absurd rfl ha
  | cons q qs ih =>
    cases qs with
    | nil =>
      rw [List.cons_append, List.nil_append, joinSep_cons _ hb]
      rfl
    | cons r rs =>
      rw [List.cons_append, joinSep_cons _ (List.append_ne_nil_of_left_ne_nil (by simp) b),
        joinSep_cons _ (by simp : (r :: rs : List (List Char)) ≠ []), ih (by simp)]
      simp

lemma joinSep_specGreedy {cs : Nat} : ∀ {ps buf : List (List Char)},
    (∀ p ∈ buf, GoodPara p) → (∀ p ∈ ps, GoodPara p) →
    joinSep (specGreedy cs buf ps) = joinSep (buf ++ ps) := by
  intro ps
  induction ps with
  | nil =>
    intro buf hbuf _
    rw [specGreedy]
    by_cases hb : buf = []
    · subst hb
      simp
    · rw [if_neg hb, List.append_nil]
      have : joinSep [strip (joinSep buf)] = strip (joinSep buf) := rfl
      rw [this, strip_joinSep_good hb hbuf]
  | cons p rest ih =>
    intro buf hbuf hps
    have hp : GoodPara p := hps p (by simp)
    have hrest : ∀ q ∈ rest, GoodPara q := fun q hq => hps q (List.mem_cons_of_mem _ hq)
    have hsingle : ∀ q ∈ ([p] : List (List Char)), GoodPara q := by
      intro q hq
      simp at hq
      rwa [hq]
    rw [specGreedy]
    by_cases hc : cs ≤ joinLen (buf ++ [p])
    · rw [if_pos hc]
      by_cases hb : buf = []
      · subst hb
        rw [if_pos rfl, List.nil_append, List.nil_append, ih hsingle hrest]
        simp
      · rw [if_neg hb]
        have hspec_ne : specGreedy cs [p] rest ≠ [] := fun hh => by
          simpa using (specGreedy_eq_nil hh).1
        rw [joinSep_append_of_ne (by simp) hspec_ne]
        have h1 : joinSep [strip (joinSep buf)] = strip (joinSep buf) := rfl
        rw [h1, strip_joinSep_good hb hbuf, ih hsingle hrest,
          joinSep_append_of_ne hb (by simp : (p :: rest : List (List Char)) ≠ [])]
        simp
    · rw [if_neg hc, ih (by
        intro q hq
        rcases List.mem_append.mp hq with h | h
        · exact hbuf q h
        · simp at h
          rwa [h]) hrest]
      rw [List.append_assoc]
      rfl

end Memz

namespace Memz

instance : DecidablePred GoodPara := fun p => by
  unfold GoodPara
  infer_instance

lemma chunkLoop_single (cs : Nat) (content : List Char) :
    chunkLoop cs [content] [] [] = ([], content ++ sep) := by
  simp only [chunkLoop]
  split
  · simp [chunkLoop]
  · simp [chunkLoop]

lemma paraChunks_single {content : List Char} (h : splitParas content = [content]) (cs : Nat) :
    paraChunks content cs = [strip content] := by
  simp only [paraChunks, h, chunkLoop_single]
  have hne : content ++ sep ≠ [] := by simp [sep]
  rw [if_neg hne, List.nil_append, strip_append_sep]

lemma chunk_content_empty (cs : Nat) : chunk_content [] cs = [[]] := by
  rw [chunk_content_eq_paraChunks,
    paraChunks_single (show splitParas [] = [[]] from rfl) cs]
  simp [strip]

/-- Claim C1: for every input text and threshold, `_chunk_content` splits the
text on blank-line boundaries and greedily accumulates paragraphs into a
running buffer until adding the next paragraph would make the buffer's
character length meet or exceed the threshold; the buffer is then sealed as a
chunk and a new buffer starts with the triggering paragraph, and the final
non-empty buffer is always sealed as the last chunk.  Formally the source
function equals the greedy model written from the spec's words. -/
theorem chunking_matches_greedy_spec (content : List Char) (cs : Nat) :
    chunk_content content cs = chunkContentSpec content cs := by
  rw [chunk_content_eq_paraChunks, paraChunks_eq_spec]

/-- Claim C10: for every input string, including the empty string,
`_chunk_content` returns a non-empty chunk list (the paragraph path), the
empty string yields a single empty chunk, and the size-based fallback branch
is never executed (the result always equals the paragraph path). -/
theorem paragraph_path_always_nonempty (content : List Char) (cs : Nat) :
    chunk_content content cs ≠ [] ∧ chunk_content content cs = paraChunks content cs ∧
      chunk_content [] cs = [[]] := by
  refine ⟨?_, chunk_content_eq_paraChunks content cs, chunk_content_empty cs⟩
  rw [chunk_content_eq_paraChunks]
  exact paraChunks_ne_nil content cs

/-- Claim C2 counterexample: for the text `"a \n\n b"` and threshold 2, the
chunks are `["a", "b"]`: rejoining them with the separator does not reproduce
the text, and the space characters appear in no chunk. -/
theorem chunk_rejoin_counterexample :
    chunk_content ['a', ' ', '\n', '\n', ' ', 'b'] 2 = [['a'], ['b']] ∧
      joinSep (chunk_content ['a', ' ', '\n', '\n', ' ', 'b'] 2) ≠
        ['a', ' ', '\n', '\n', ' ', 'b'] := by
  decide

/-- Claim C2 amended: when every paragraph of the text is nonempty and already
trimmed (no leading or trailing whitespace), concatenating the chunks of
`_chunk_content` with the blank-line separators reinserted reproduces the text
exactly, for every threshold. -/
theorem chunk_rejoin_clean_paragraphs (content : List Char) (cs : Nat)
    (hgood : ∀ p ∈ splitParas content, GoodPara p) :
    joinSep (chunk_content content cs) = content := by
  rw [chunk_content_eq_paraChunks, paraChunks_eq_spec, chunkContentSpec,
    joinSep_specGreedy (by simp) hgood]
  simpa using joinSep_splitParas content

/-- Witness for `chunk_rejoin_clean_paragraphs` at the text `"ab\n\ncd"` and
threshold 3. -/
theorem chunk_rejoin_clean_paragraphs_witness :
    (∀ p ∈ splitParas ['a', 'b', '\n', '\n', 'c', 'd'], GoodPara p) ∧
      joinSep (chunk_content ['a', 'b', '\n', '\n', 'c', 'd'] 3) =
        ['a', 'b', '\n', '\n', 'c', 'd'] :=
  ⟨by decide, chunk_rejoin_clean_paragraphs _ 3 (by decide)⟩

/-- Claim C9 counterexample: the text `"abc  "` is a single paragraph of
length 5; with threshold 5 `_chunk_content` returns one chunk `"abc"`, which
is not the entire paragraph and whose length is below the threshold. -/
theorem single_paragraph_counterexample :
    splitParas ['a', 'b', 'c', ' ', ' '] = [['a', 'b', 'c', ' ', ' ']] ∧
      5 ≤ (['a', 'b', 'c', ' ', ' '] : List Char).length ∧
      chunk_content ['a', 'b', 'c', ' ', ' '] 5 = [['a', 'b', 'c']] ∧
      chunk_content ['a', 'b', 'c', ' ', ' '] 5 ≠ [['a', 'b', 'c', ' ', ' ']] ∧
      (∀ c ∈ chunk_content ['a', 'b', 'c', ' ', ' '] 5, c.length < 5) := by
  decide

/-- Claim C9 amended: for any text that is a single paragraph (no blank-line
separator), `_chunk_content` returns exactly one chunk, namely the paragraph
with its leading and trailing whitespace trimmed; when the paragraph carries
no surrounding whitespace the single chunk is the entire text (so, when the
text's length meets the threshold, the chunk's length does too). -/
theorem single_paragraph_single_chunk (content : List Char) (cs : Nat)
    (h : splitParas content = [content]) :
    chunk_content content cs = [strip content] ∧
      (strip content = content → chunk_content content cs = [content]) := by
  have h1 : chunk_content content cs = [strip content] := by
    rw [chunk_content_eq_paraChunks, paraChunks_single h]
  exact ⟨h1, fun hs => by rw [h1, hs]⟩

/-- Witness for `single_paragraph_single_chunk` at the text `"abcde"` and
threshold 3. -/
theorem single_paragraph_single_chunk_witness :
    splitParas ['a', 'b', 'c', 'd', 'e'] = [['a', 'b', 'c', 'd', 'e']] ∧
      chunk_content ['a', 'b', 'c', 'd', 'e'] 3 = [strip ['a', 'b', 'c', 'd', 'e']] :=
  ⟨by decide, (single_paragraph_single_chunk _ 3 (by decide)).1⟩

end Memz

namespace Memz

lemma sliceChunks_nil_left (cs : Nat) : sliceChunks [] cs = [] := by
  rw [sliceChunks]
  split
  · rfl
  · rfl

lemma sliceChunks_join : ∀ (content : List Char) (cs : Nat), cs ≠ 0 →
    (sliceChunks content cs).flatten = content := by
  intro content cs
  induction content, cs using sliceChunks.induct with
  | case1 content => intro hcs; exact absurd rfl hcs
  | case2 cs hc =>
    intro _
    rw [sliceChunks_nil_left]
    rfl
  | case3 content cs hc hcont ih =>
    intro hcs
    rw [sliceChunks, if_neg hc, dif_neg hcont]
    simp only [List.flatten_cons]
    rw [ih hcs, List.take_append_drop]

lemma sliceChunks_ne_nil {content : List Char} {cs : Nat} (hcs : cs ≠ 0) (hc : content ≠ []) :
    sliceChunks content cs ≠ [] := by
  rw [sliceChunks, if_neg hcs, dif_neg hc]
  simp

lemma sliceChunks_mem : ∀ (content : List Char) (cs : Nat), cs ≠ 0 →
    ∀ c ∈ sliceChunks content cs, c ≠ [] ∧ c.length ≤ cs := by
  intro content cs
  induction content, cs using sliceChunks.induct with
  | case1 content => intro hcs; exact absurd rfl hcs
  | case2 cs hc =>
    intro _ c hcmem
    rw [sliceChunks_nil_left] at hcmem
    simp at hcmem
  | case3 content cs hc hcont ih =>
    intro hcs c hcmem
    rw [sliceChunks, if_neg hc, dif_neg hcont] at hcmem
    rcases List.mem_cons.mp hcmem with rfl | hcm
    · refine ⟨?_, ?_⟩
      · intro ht
        rcases List.take_eq_nil_iff.mp ht with h | h
        · exact hc h
        · exact hcont h
      · rw [List.length_take]
        exact min_le_left _ _
    · exact ih hcs c hcm

lemma sliceChunks_dropLast : ∀ (content : List Char) (cs : Nat), cs ≠ 0 →
    ∀ c ∈ (sliceChunks content cs).dropLast, c.length = cs := by
  intro content cs
  induction content, cs using sliceChunks.induct with
  | case1 content => intro hcs; exact absurd rfl hcs
  | case2 cs hc =>
    intro _ c hcmem
    rw [sliceChunks_nil_left] at hcmem
    simp at hcmem
  | case3 content cs hc hcont ih =>
    intro hcs c hcmem
    rw [sliceChunks, if_neg hc, dif_neg hcont] at hcmem
    cases hrest : sliceChunks (content.drop cs) cs with
    | nil =>
      rw [hrest] at hcmem
      simp at hcmem
    | cons r rs =>
      rw [hrest, List.dropLast_cons₂] at hcmem
      rcases List.mem_cons.mp hcmem with rfl | hcm
      · have hdrop : content.drop cs ≠ [] := by
          intro hd
          rw [hd, sliceChunks_nil_left] at hrest
          exact List.noConfusion hrest
        have hlt : cs < content.length := by
          by_contra hle
          exact hdrop (List.drop_eq_nil_iff.mpr (by omega))
        rw [List.length_take]
        omega
      · exact ih hcs c (by rw [hrest]; exact hcm)

/-- Claim C7: the code falls back to fixed-size slicing exactly when the
paragraph path yields zero chunks, and for a positive threshold and nonempty
input the slicing produces one or more chunks of exactly the threshold length
each, except the last which may be shorter (never empty), covering the raw
text with no gaps or overlaps.  (The zero-chunk condition in fact never
arises: the paragraph path always returns at least one chunk.) -/
theorem fallback_fixed_size_slicing (content : List Char) (cs : Nat)
    (hcs : 0 < cs) (hne : content ≠ []) :
    chunk_content content cs =
      (if paraChunks content cs = [] then sliceChunks content cs
       else paraChunks content cs) ∧
    sliceChunks content cs ≠ [] ∧
    (sliceChunks content cs).flatten = content ∧
    (∀ c ∈ (sliceChunks content cs).dropLast, c.length = cs) ∧
    (∀ c ∈ sliceChunks content cs, c ≠ [] ∧ c.length ≤ cs) := by
  have hcs' : cs ≠ 0 := Nat.pos_iff_ne_zero.mp hcs
  exact ⟨rfl, sliceChunks_ne_nil hcs' hne, sliceChunks_join _ _ hcs',
    sliceChunks_dropLast _ _ hcs', sliceChunks_mem _ _ hcs'⟩

/-- Witness for `fallback_fixed_size_slicing` at the text `"abcd"` and
threshold 3. -/
theorem fallback_fixed_size_slicing_witness :
    0 < 3 ∧ (['a', 'b', 'c', 'd'] : List Char) ≠ [] ∧
    (chunk_content ['a', 'b', 'c', 'd'] 3 =
      (if paraChunks ['a', 'b', 'c', 'd'] 3 = [] then sliceChunks ['a', 'b', 'c', 'd'] 3
       else paraChunks ['a', 'b', 'c', 'd'] 3) ∧
    sliceChunks ['a', 'b', 'c', 'd'] 3 ≠ [] ∧
    (sliceChunks ['a', 'b', 'c', 'd'] 3).flatten = ['a', 'b', 'c', 'd'] ∧
    (∀ c ∈ (sliceChunks ['a', 'b', 'c', 'd'] 3).dropLast, c.length = 3) ∧
    (∀ c ∈ sliceChunks ['a', 'b', 'c', 'd'] 3, c ≠ [] ∧ c.length ≤ 3)) :=
  ⟨by decide, by decide, fallback_fixed_size_slicing _ 3 (by decide) (by decide)⟩

end Memz

namespace Memz

/-- One `memory.add` call as observed by the vector store: the source
identifier carried by the chunk metadata and the submitted text. -/
structure StoredEntry where
  sourceKey : String
  text : List Char
deriving DecidableEq

/-- The mutable per-process state of `KnowledgeBaseService` (lines 67-73):
the dedup set `processed_hashes` (MD5 digests, modelled by the hashed chunk
text itself) and the `stats_cache` counters, plus the log of stored entries. -/
structure KBState where
  processed_hashes : List (List Char)
  total_chunks : Nat
  sources : List (String × Nat)
  unique_sources : Nat
  total_memories : Nat
  stored : List StoredEntry
deriving DecidableEq

/-- The state set up by `__init__`. -/
def initState : KBState :=
  { processed_hashes := [], total_chunks := 0, sources := [], unique_sources := 0,
    total_memories := 0, stored := [] }

/-- Python `self.stats_cache["sources"][k] = .get(k, 0) + 1` (line 134), with
dict insertion order preserved. -/
def bumpSource (sources : List (String × Nat)) (key : String) : List (String × Nat) :=
  if key ∈ sources.map Prod.fst then
    sources.map (fun kv => if kv.1 = key then (key, kv.2 + 1) else kv)
  else sources ++ [(key, 1)]

/-- The attribution text `f"From {path.name}: "` (line 120). -/
def fileMark (name : String) : List Char := ("From " ++ name ++ ": ").data

/-- The attribution text `f"Web content from {title}: "` (line 243). -/
def webMark (title : String) : List Char := ("Web content from " ++ title ++ ": ").data

/-- The success payload of an ingestion call. -/
structure IngestResult where
  success : Bool
  chunks_processed : Nat
  chunks_stored : Nat
deriving DecidableEq

/-- One iteration of the storing loop of `process_local_file` (lines 113-135):
hash the raw chunk, skip it when already seen, otherwise store the prefixed
text, record the hash, bump `stored_count` and update the stats cache. -/
def fileStep (name sourceKey : String) (acc : Nat × KBState) (chunk : List Char) :
    Nat × KBState :=
  let st := acc.2
  if chunk ∈ st.processed_hashes then acc
  else
    let sources' := bumpSource st.sources sourceKey
    (acc.1 + 1,
      { processed_hashes := st.processed_hashes ++ [chunk]
        total_chunks := st.total_chunks + 1
        sources := sources'
        unique_sources := sources'.length
        total_memories := st.total_memories + 1
        stored := st.stored ++ [⟨sourceKey, fileMark name ++ chunk⟩] })

/-- `process_local_file` (lines 75-146) after the file's text has been
extracted (reading and PDF/Word extraction are abstracted into `content`):
chunk at 1000, store unseen chunks, report processed/stored counts. -/
def process_local_file_content (name sourceKey : String) (content : List Char)
    (st : KBState) : IngestResult × KBState :=
  let chunks := chunk_content content 1000
  let r := chunks.foldl (fileStep name sourceKey) (0, st)
  ({ success := true, chunks_processed := chunks.length, chunks_stored := r.1 }, r.2)

/-- One iteration of the storing loop of `process_website` (lines 237-250):
identical hashing and dedup on the raw chunk, but no stats-cache update. -/
def webStep (title url : String) (acc : Nat × KBState) (chunk : List Char) :
    Nat × KBState :=
  let st := acc.2
  if chunk ∈ st.processed_hashes then acc
  else
    (acc.1 + 1,
      { st with processed_hashes := st.processed_hashes ++ [chunk]
                stored := st.stored ++ [⟨url, webMark title ++ chunk⟩] })

/-- `process_website` (lines 204-264) after fetching and flattening the page
text into `content`: chunk at 800 and store unseen chunks. -/
def process_website_content (title url : String) (content : List Char)
    (st : KBState) : IngestResult × KBState :=
  let chunks := chunk_content content 800
  let r := chunks.foldl (webStep title url) (0, st)
  ({ success := true, chunks_processed := chunks.length, chunks_stored := r.1 }, r.2)

/-- A file below the folder root: its path components, lowercased extension
and extracted text (format-specific extraction is abstracted into `content`). -/
structure FileEntry where
  parts : List String
  suffix : String
  content : List Char
deriving DecidableEq

/-- The text-like extensions read directly by `process_local_file` (line 92). -/
def textExtensions : List String :=
  [".txt", ".md", ".json", ".py", ".js", ".html", ".css", ".yml", ".yaml", ".tf", ".tfvars"]

/-- The default allow-list of `process_folder` (line 156). -/
def defaultExtensions : List String :=
  [".txt", ".md", ".pdf", ".docx", ".py", ".js", ".json", ".html", ".css", ".tf",
   ".tfvars", ".yml", ".yaml"]

/-- Result of one file: either the ingestion payload or an error message. -/
inductive FileResult where
  | ok : IngestResult → FileResult
  | error : String → FileResult
deriving DecidableEq

/-- `str(path)`: the path components joined by `/`. -/
def pathString (f : FileEntry) : String := String.intercalate "/" f.parts

/-- `path.name`: the final path component. -/
def fileName (f : FileEntry) : String := f.parts.getLastD ""

/-- `process_local_file`'s dispatch on the file extension (lines 82-106):
text-like files, PDFs and Word documents are ingested; any other extension
yields the "Unsupported file type" error result and leaves the state alone. -/
def process_local_file (f : FileEntry) (st : KBState) : FileResult × KBState :=
  if f.suffix ∈ textExtensions then
    let r := process_local_file_content (fileName f) (pathString f) f.content st
    (FileResult.ok r.1, r.2)
  else if f.suffix = ".pdf" then
    let r := process_local_file_content (fileName f) (pathString f) f.content st
    (FileResult.ok r.1, r.2)
  else if f.suffix = ".docx" ∨ f.suffix = ".doc" then
    let r := process_local_file_content (fileName f) (pathString f) f.content st
    (FileResult.ok r.1, r.2)
  else
    (FileResult.error ("Unsupported file type: " ++ f.suffix), st)

/-- Python `component.startswith('.')`. -/
def startsDot (p : String) : Bool :=
  match p.data with
  | '.' :: _ => true
  | _ => false

/-- Boolean: the first list occurs at the head of the second. -/
def leadsWith : List Char → List Char → Bool
  | [], _ => true
  | _ :: _, [] => false
  | a :: as, b :: bs => a == b && leadsWith as bs

/-- Boolean: the first list occurs contiguously somewhere in the second. -/
def containsSeq (needle : List Char) : List Char → Bool
  | [] => needle.isEmpty
  | c :: t => leadsWith needle (c :: t) || containsSeq needle t

/-- The skip conditions of the folder walk (lines 162-165): hidden path
components and well-known noise directories in the path string. -/
def skipEntry (f : FileEntry) : Bool :=
  f.parts.any startsDot ||
    (["node_modules", "__pycache__", "venv", ".git"].any
      (fun s => containsSeq s.data (pathString f).data))

/-- The walk filter of `process_folder` (lines 160-165): the extension
allow-list plus the skip conditions. -/
def walkAccept (extensions : List String) (f : FileEntry) : Bool :=
  decide (f.suffix ∈ extensions) && !(skipEntry f)

/-- `process_folder` (lines 148-175): route each accepted file through
`process_local_file`, collecting one result per accepted file in traversal
order (the order of the given list models `rglob` order); an error result for
one file does not abort the walk. -/
def process_folder (files : List FileEntry) (extensions : List String) (st : KBState) :
    List FileResult × KBState :=
  files.foldl
    (fun acc f =>
      if walkAccept extensions f then
        let r := process_local_file f acc.2
        (acc.1 ++ [r.1], r.2)
      else acc)
    ([], st)

/-- The outcome of `process_query` (app.py lines 188-194). -/
structure QueryResult where
  response : List Char
  memories_used : Nat
  knowledge_used : Nat
  context : List (List Char)
  knowledge_context : List (List Char)
deriving DecidableEq

/-- `process_query` (app.py lines 84-194), with the external collaborators
abstracted: `memory_results` is the list returned by
`self.memory.search(query, user_id=self.user_id)` — note the call passes no
limit argument — where an entry is `some text` when the result dict has a
`'memory'` key; `knowledge` is the list extracted from the knowledge-base
service response (empty when that call failed); `ai` is the language model's
reply.  Every memory entry returned is kept and counted; only the audit
lists are capped at 3. -/
def process_query (memory_results : List (Option (List Char)))
    (knowledge : List (List Char)) (ai : List Char) : QueryResult :=
  let memories := memory_results.filterMap id
  { response := ai
    memories_used := memories.length
    knowledge_used := knowledge.length
    context := if memories = [] then [] else memories.take 3
    knowledge_context := if knowledge = [] then [] else knowledge.take 3 }

end Memz

namespace Memz

lemma foldl_hash_mono (step : (Nat × KBState) → List Char → (Nat × KBState))
    (hmono : ∀ (acc : Nat × KBState) (chunk x : List Char),
      x ∈ acc.2.processed_hashes → x ∈ (step acc chunk).2.processed_hashes) :
    ∀ (chunks : List (List Char)) (acc : Nat × KBState) (x : List Char),
      x ∈ acc.2.processed_hashes → x ∈ (chunks.foldl step acc).2.processed_hashes := by
  intro chunks
  induction chunks with
  | nil => intro acc x hx; exact hx
  | cons c rest ih =>
    intro acc x hx
    rw [List.foldl_cons]
    exact ih _ x (hmono acc c x hx)

lemma foldl_hash_all (step : (Nat × KBState) → List Char → (Nat × KBState))
    (hmono : ∀ (acc : Nat × KBState) (chunk x : List Char),
      x ∈ acc.2.processed_hashes → x ∈ (step acc chunk).2.processed_hashes)
    (hself : ∀ (acc : Nat × KBState) (chunk : List Char),
      chunk ∈ (step acc chunk).2.processed_hashes) :
    ∀ (chunks : List (List Char)) (acc : Nat × KBState),
      ∀ c ∈ chunks, c ∈ (chunks.foldl step acc).2.processed_hashes := by
  intro chunks
  induction chunks with
  | nil => intro acc c hc; simp at hc
  | cons d rest ih =>
    intro acc c hc
    rw [List.foldl_cons]
    rcases List.mem_cons.mp hc with rfl | hcm
    · exact foldl_hash_mono step hmono rest (step acc c) c (hself acc c)
    · exact ih _ c hcm

lemma foldl_skip_all (step : (Nat × KBState) → List Char → (Nat × KBState))
    (hskip : ∀ (acc : Nat × KBState) (chunk : List Char),
      chunk ∈ acc.2.processed_hashes → step acc chunk = acc) :
    ∀ (chunks : List (List Char)) (acc : Nat × KBState),
      (∀ c ∈ chunks, c ∈ acc.2.processed_hashes) → chunks.foldl step acc = acc := by
  intro chunks
  induction chunks with
  | nil => intro acc _; rfl
  | cons d rest ih =>
    intro acc hall
    rw [List.foldl_cons, hskip acc d (hall d (by simp))]
    exact ih acc (fun c hc => hall c (List.mem_cons_of_mem _ hc))

lemma fileStep_mono (name sourceKey : String) :
    ∀ (acc : Nat × KBState) (chunk x : List Char),
      x ∈ acc.2.processed_hashes → x ∈ (fileStep name sourceKey acc chunk).2.processed_hashes := by
  intro acc chunk x hx
  unfold fileStep
  by_cases hmem : chunk ∈ acc.2.processed_hashes
  · simpa [hmem] using hx
  · simp only [hmem, if_false]
    simp [hx]

lemma fileStep_self (name sourceKey : String) :
    ∀ (acc : Nat × KBState) (chunk : List Char),
      chunk ∈ (fileStep name sourceKey acc chunk).2.processed_hashes := by
  intro acc chunk
  unfold fileStep
  by_cases hmem : chunk ∈ acc.2.processed_hashes
  · simpa [hmem] using hmem
  · simp [hmem]

lemma fileStep_skip (name sourceKey : String) :
    ∀ (acc : Nat × KBState) (chunk : List Char),
      chunk ∈ acc.2.processed_hashes → fileStep name sourceKey acc chunk = acc := by
  intro acc chunk hmem
  unfold fileStep
  simp [hmem]

lemma webStep_mono (title url : String) :
    ∀ (acc : Nat × KBState) (chunk x : List Char),
      x ∈ acc.2.processed_hashes → x ∈ (webStep title url acc chunk).2.processed_hashes := by
  intro acc chunk x hx
  unfold webStep
  by_cases hmem : chunk ∈ acc.2.processed_hashes
  · simpa [hmem] using hx
  · simp only [hmem, if_false]
    simp [hx]

lemma webStep_self (title url : String) :
    ∀ (acc : Nat × KBState) (chunk : List Char),
      chunk ∈ (webStep title url acc chunk).2.processed_hashes := by
  intro acc chunk
  unfold webStep
  by_cases hmem : chunk ∈ acc.2.processed_hashes
  · simpa [hmem] using hmem
  · simp [hmem]

lemma webStep_skip (title url : String) :
    ∀ (acc : Nat × KBState) (chunk : List Char),
      chunk ∈ acc.2.processed_hashes → webStep title url acc chunk = acc := by
  intro acc chunk hmem
  unfold webStep
  simp [hmem]

lemma process_local_file_content_hashes (name sourceKey : String) (content : List Char)
    (st : KBState) :
    ∀ c ∈ chunk_content content 1000,
      c ∈ ((process_local_file_content name sourceKey content st).2).processed_hashes := by
  intro c hc
  unfold process_local_file_content
  exact foldl_hash_all (fileStep name sourceKey) (fileStep_mono name sourceKey)
    (fileStep_self name sourceKey) (chunk_content content 1000) (0, st) c hc

/-- Claim C4: re-ingesting identical file content a second time in the same
process stores nothing (`chunks_stored = 0`), reports the same
`chunks_processed` as the first call, and leaves the whole service state
untouched — every chunk's fingerprint has already been seen, so each chunk is
silently skipped. -/
theorem reingest_idempotent (name sourceKey : String) (content : List Char) (st : KBState) :
    ((process_local_file_content name sourceKey content
        (process_local_file_content name sourceKey content st).2).1).chunks_stored = 0 ∧
    ((process_local_file_content name sourceKey content
        (process_local_file_content name sourceKey content st).2).1).chunks_processed =
      ((process_local_file_content name sourceKey content st).1).chunks_processed ∧
    (process_local_file_content name sourceKey content
        (process_local_file_content name sourceKey content st).2).2 =
      (process_local_file_content name sourceKey content st).2 := by
  have hall : ∀ c ∈ chunk_content content 1000,
      c ∈ ((process_local_file_content name sourceKey content st).2).processed_hashes :=
    process_local_file_content_hashes name sourceKey content st
  have hsecond : (chunk_content content 1000).foldl (fileStep name sourceKey)
      (0, (process_local_file_content name sourceKey content st).2) =
      (0, (process_local_file_content name sourceKey content st).2) :=
    foldl_skip_all (fileStep name sourceKey) (fileStep_skip name sourceKey)
      (chunk_content content 1000) _ hall
  refine ⟨?_, rfl, ?_⟩
  · show ((chunk_content content 1000).foldl (fileStep name sourceKey)
      (0, (process_local_file_content name sourceKey content st).2)).1 = 0
    rw [hsecond]
  · show ((chunk_content content 1000).foldl (fileStep name sourceKey)
      (0, (process_local_file_content name sourceKey content st).2)).2 =
      (process_local_file_content name sourceKey content st).2
    rw [hsecond]

/-- Claim C6 counterexample: the text `"hi"` ingested once as a file and then
as web content with the same underlying chunk is deduplicated across the two
sources — the website call processes the chunk but stores nothing — refuting
the claim that fingerprints are taken inconsistently before or after the
attribution text and that identical content from different sources is never
deduplicated against itself. -/
theorem cross_source_dedup_counterexample :
    ((process_local_file_content "doc.txt" "/tmp/doc.txt" ['h', 'i'] initState).1).chunks_stored
        = 1 ∧
    ((process_website_content "Site" "http://site.example" ['h', 'i']
        (process_local_file_content "doc.txt" "/tmp/doc.txt" ['h', 'i']
          initState).2).1).chunks_processed = 1 ∧
    ((process_website_content "Site" "http://site.example" ['h', 'i']
        (process_local_file_content "doc.txt" "/tmp/doc.txt" ['h', 'i']
          initState).2).1).chunks_stored = 0 := by
  decide

/-- Claim C6 amended: both ingestion paths fingerprint the raw chunk text
before the human-readable source attribution is prepended, so identical
underlying chunk content from different sources is deduplicated: whenever the
two chunkings coincide, a website ingestion of content previously ingested as
a file stores nothing. -/
theorem fingerprint_before_mark_dedup (name sourceKey title url : String)
    (content : List Char) (st : KBState)
    (hsame : chunk_content content 800 = chunk_content content 1000) :
    ((process_website_content title url content
        (process_local_file_content name sourceKey content st).2).1).chunks_stored = 0 := by
  have hall : ∀ c ∈ chunk_content content 1000,
      c ∈ ((process_local_file_content name sourceKey content st).2).processed_hashes :=
    process_local_file_content_hashes name sourceKey content st
  show ((chunk_content content 800).foldl (webStep title url)
      (0, (process_local_file_content name sourceKey content st).2)).1 = 0
  rw [hsame]
  rw [foldl_skip_all (webStep title url) (webStep_skip title url)
    (chunk_content content 1000)
    (0, (process_local_file_content name sourceKey content st).2) hall]

/-- Witness for `fingerprint_before_mark_dedup` at the text `"hi"`. -/
theorem fingerprint_before_mark_dedup_witness :
    chunk_content ['h', 'i'] 800 = chunk_content ['h', 'i'] 1000 ∧
      ((process_website_content "Site" "http://site.example" ['h', 'i']
          (process_local_file_content "doc.txt" "/tmp/doc.txt" ['h', 'i']
            initState).2).1).chunks_stored = 0 :=
  ⟨by decide, fingerprint_before_mark_dedup "doc.txt" "/tmp/doc.txt" "Site"
    "http://site.example" ['h', 'i'] initState (by decide)⟩

end Memz

namespace Memz

/-- The stats-cache bookkeeping invariant maintained by the local-file path:
total chunks counts the stored entries, the unique-source counter equals the
size of the per-source table, the table's keys are distinct, and its keys are
exactly the source identifiers of stored entries. -/
def StatsInv (st : KBState) : Prop :=
  st.total_chunks = st.stored.length ∧
  st.unique_sources = st.sources.length ∧
  (st.sources.map Prod.fst).Nodup ∧
  ∀ k, k ∈ st.sources.map Prod.fst ↔ k ∈ st.stored.map StoredEntry.sourceKey

lemma bumpSource_keys (sources : List (String × Nat)) (key : String) :
    (bumpSource sources key).map Prod.fst =
      if key ∈ sources.map Prod.fst then sources.map Prod.fst
      else sources.map Prod.fst ++ [key] := by
  unfold bumpSource
  split
  · rw [List.map_map]
    refine List.map_congr_left ?_
    intro kv _
    by_cases hkv : kv.1 = key
    · simp [hkv]
    · simp [hkv]
  · simp

lemma fileStep_statsInv (name sourceKey : String) (acc : Nat × KBState) (chunk : List Char)
    (hinv : StatsInv acc.2) : StatsInv (fileStep name sourceKey acc chunk).2 := by
  unfold fileStep
  by_cases hmem : chunk ∈ acc.2.processed_hashes
  · simpa [hmem] using hinv
  · simp only [hmem, if_false]
    obtain ⟨h1, h2, h3, h4⟩ := hinv
    refine ⟨by simp [h1], rfl, ?_, ?_⟩
    · rw [bumpSource_keys]
      split
      · exact h3
      · refine List.Nodup.append h3 (List.nodup_singleton _) ?_
        intro k hk hk'
        simp at hk'
        subst hk'
        exact (by assumption : ¬ k ∈ acc.2.sources.map Prod.fst) hk
    · intro k
      rw [bumpSource_keys]
      split
      · rename_i hik
        simp only [List.map_append, List.mem_append, List.map_cons, List.map_nil,
          List.mem_singleton]
        constructor
        · intro hm
          exact Or.inl ((h4 k).mp hm)
        · rintro (hm | rfl)
          · exact (h4 k).mpr hm
          · exact hik
      · simp only [List.map_append, List.mem_append, List.map_cons, List.map_nil,
          List.mem_singleton]
        rw [h4 k]

lemma foldl_fileStep_statsInv (name sourceKey : String) :
    ∀ (chunks : List (List Char)) (acc : Nat × KBState),
      StatsInv acc.2 → StatsInv ((chunks.foldl (fileStep name sourceKey) acc).2) := by
  intro chunks
  induction chunks with
  | nil => intro acc h; exact h
  | cons c rest ih =>
    intro acc h
    rw [List.foldl_cons]
    exact ih _ (fileStep_statsInv name sourceKey acc c h)

lemma process_local_file_content_statsInv (name sourceKey : String) (content : List Char)
    (st : KBState) (hinv : StatsInv st) :
    StatsInv ((process_local_file_content name sourceKey content st).2) :=
  foldl_fileStep_statsInv name sourceKey (chunk_content content 1000) (0, st) hinv

/-- A sequence of local-file ingestions, each given as
(file name, source identifier, extracted content). -/
def runLocalOps (ops : List (String × String × List Char)) (st : KBState) : KBState :=
  ops.foldl (fun s op => (process_local_file_content op.1 op.2.1 op.2.2 s).2) st

lemma runLocalOps_statsInv :
    ∀ (ops : List (String × String × List Char)) (st : KBState),
      StatsInv st → StatsInv (runLocalOps ops st) := by
  intro ops
  induction ops with
  | nil => intro st h; exact h
  | cons op rest ih =>
    intro st h
    unfold runLocalOps
    rw [List.foldl_cons]
    exact ih _ (process_local_file_content_statsInv op.1 op.2.1 op.2.2 st h)

lemma initState_statsInv : StatsInv initState := by
  refine ⟨rfl, rfl, List.nodup_nil, ?_⟩
  intro k
  simp [initState]

/-- Claim C3 amended (local-file path): after any sequence of local-file
ingestions from a fresh state, `total_chunks` equals the number N of
successful unique-chunk stores and `unique_sources` equals the number K of
distinct source identifiers among those stores; each store increments the
total-chunk counter and the per-source counter and recomputes the
unique-source count.  (The website path, by contrast, performs stores
without touching these counters.) -/
theorem stats_invariant_local_files (ops : List (String × String × List Char)) :
    (runLocalOps ops initState).total_chunks = (runLocalOps ops initState).stored.length ∧
    (runLocalOps ops initState).unique_sources =
      ((runLocalOps ops initState).stored.map StoredEntry.sourceKey).toFinset.card := by
  obtain ⟨h1, h2, h3, h4⟩ := runLocalOps_statsInv ops initState initState_statsInv
  refine ⟨h1, ?_⟩
  have hlen : (runLocalOps ops initState).sources.length
      = ((runLocalOps ops initState).sources.map Prod.fst).length := (List.length_map _ _).symm
  rw [h2, hlen, ← List.toFinset_card_of_nodup h3]
  congr 1
  ext k
  simp only [List.mem_toFinset]
  exact h4 k

/-- Claim C3 counterexample: a website ingestion from a fresh state performs
one successful unique-chunk store (N = 1 across K = 1 source) yet leaves
`total_chunks = 0` and `unique_sources = 0`: website stores never update the
stats cache. -/
theorem website_stats_counterexample :
    ((process_website_content "Example" "http://example.com" ['h', 'i'] initState).1).chunks_stored
        = 1 ∧
    ((process_website_content "Example" "http://example.com" ['h', 'i']
        initState).2).stored.length = 1 ∧
    ((process_website_content "Example" "http://example.com" ['h', 'i']
        initState).2).total_chunks = 0 ∧
    ((process_website_content "Example" "http://example.com" ['h', 'i']
        initState).2).unique_sources = 0 := by
  decide

end Memz

namespace Memz

/-- Test files for the folder-walk scenario of the specification. -/
def aTxt : FileEntry := ⟨["docs", "a.txt"], ".txt", ['h', 'e', 'l', 'l', 'o']⟩

/-- Test file with a PDF extension (extraction abstracted to its text). -/
def bPdf : FileEntry := ⟨["docs", "b.pdf"], ".pdf", ['w', 'o', 'r', 'l', 'd']⟩

/-- Test file with an executable extension. -/
def cExe : FileEntry := ⟨["docs", "c.exe"], ".exe", ['M', 'Z']⟩

lemma process_folder_go_length (extensions : List String) :
    ∀ (files : List FileEntry) (acc : List FileResult × KBState),
      (files.foldl
        (fun acc f =>
          if walkAccept extensions f then
            ((acc.1 ++ [(process_local_file f acc.2).1]), (process_local_file f acc.2).2)
          else acc) acc).1.length =
        acc.1.length + (files.filter (walkAccept extensions)).length := by
  intro files
  induction files with
  | nil => intro acc; simp
  | cons f rest ih =>
    intro acc
    rw [List.foldl_cons]
    by_cases hacc : walkAccept extensions f
    · rw [if_pos hacc, ih]
      rw [List.filter_cons_of_pos hacc]
      simp
      omega
    · rw [if_neg hacc, ih, List.filter_cons_of_neg (by simpa using hacc)]

lemma process_folder_length (files : List FileEntry) (extensions : List String)
    (st : KBState) :
    (process_folder files extensions st).1.length =
      (files.filter (walkAccept extensions)).length := by
  unfold process_folder
  rw [process_folder_go_length extensions files ([], st)]
  simp

/-- Claim C5 counterexample: for a folder holding `a.txt`, `b.pdf` and
`c.exe` under the default allow-list, the result list has 2 entries, not 3 —
`c.exe` is filtered out by the extension allow-list before the local-file
adapter ever runs, so no "unsupported file type" error entry appears. -/
theorem folder_walk_counterexample :
    ((process_folder [aTxt, bPdf, cExe] defaultExtensions initState).1).length = 2 ∧
    ((process_folder [aTxt, bPdf, cExe] defaultExtensions initState).1).length ≠ 3 := by
  decide

/-- Claim C5 amended: `a.txt` and `b.pdf` each yield a success entry, in
traversal order; `c.exe` is skipped silently by the allow-list filter and
yields no entry at all.  In general the walk produces exactly one entry per
file passing the filter, in traversal order, so one file's failure (an error
entry) cannot abort or shorten the walk.  The "unsupported file type" error
arises only when `process_local_file` is reached with an extension outside
its dispatch, e.g. when a caller-supplied allow-list admits `.exe`. -/
theorem folder_walk_filtered :
    (process_folder [aTxt, bPdf, cExe] defaultExtensions initState).1 =
      [FileResult.ok ⟨true, 1, 1⟩, FileResult.ok ⟨true, 1, 1⟩] ∧
    (process_folder [cExe] [".exe"] initState).1 =
      [FileResult.error "Unsupported file type: .exe"] ∧
    ∀ (files : List FileEntry) (extensions : List String) (st : KBState),
      (process_folder files extensions st).1.length =
        (files.filter (walkAccept extensions)).length :=
  ⟨by decide, by decide, process_folder_length⟩

/-- Claim C8 counterexample: `process_query` takes no limit parameter and
passes none to the conversational-memory search; when the store returns 6
matching entries, all 6 are retained and counted, refuting the
caller-specified default-5 limit. -/
theorem query_limit_counterexample :
    (process_query (List.replicate 6 (some ['m'])) [] ['r']).memories_used = 6 ∧
      ¬(process_query (List.replicate 6 (some ['m'])) [] ['r']).memories_used ≤ 5 := by
  decide

/-- Claim C8 amended: the conversational-memory search in `process_query` is
issued with no limit argument and the function has no caller-facing limit
parameter: every returned entry having a memory field is retained and counted
in `memories_used`; only the audit lists `context` and `knowledge_context`
are capped, at 3 entries each. -/
theorem query_no_limit_behavior (memory_results : List (Option (List Char)))
    (knowledge : List (List Char)) (ai : List Char) :
    (process_query memory_results knowledge ai).memories_used =
        (memory_results.filterMap id).length ∧
      (process_query memory_results knowledge ai).context.length ≤ 3 ∧
      (process_query memory_results knowledge ai).knowledge_context.length ≤ 3 := by
  refine ⟨rfl, ?_, ?_⟩
  · show (if memory_results.filterMap id = [] then []
      else (memory_results.filterMap id).take 3).length ≤ 3
    split
    · simp
    · rw [List.length_take]
      exact min_le_left _ _
  · show (if knowledge = [] then [] else knowledge.take 3).length ≤ 3
    split
    · simp
    · rw [List.length_take]
      exact min_le_left _ _

end Memz
